import Mathlib

/-!
# Projective dynamics: the deformable mesh and the constraint panel of the driver

A shallow embedding of `pd::deformable_mesh_t` (`include/pd/deformable_mesh.h`), of the
"Constraints" panel of the viewer window callback and of the lambda `rescale`
(`src/main.cpp`).

Modelling conventions.

* `scalar_type` (`constraint_t::scalar_type`, a floating point type declared in the header
  `constraint.h`) is modelled by `ℚ`.  The mesh operations treated here only store and
  compare scalars; no floating point arithmetic is performed by them.  `rescale` is
  treated in exact arithmetic, with `double` modelled by `ℚ` as well.
* An Eigen dense matrix with dynamic size is its storage: the run-time dimensions and the
  coefficient buffer (column major, Eigen's default).
* A vertex index (`int i`) is a natural number; the accessors `fixed_[i]` and `m_(i)` are
  defined only for an index inside the container, and the theorems state that bound.
* The constraint class `constraint_t` is a type parameter `κ`.
-/

namespace pd

/-- Scalar type of the engine, `constraint_t::scalar_type`. -/
abbrev scalar_type : Type := ℚ

/-- Storage of an Eigen matrix whose two dimensions are dynamic (`Eigen::Matrix<α, -1, -1>`). -/
structure MatrixX (α : Type) where
  rows : Nat
  cols : Nat
  data : List α
deriving DecidableEq, Repr

/-- Storage of an Eigen matrix with three columns fixed at compile time
(`Eigen::Matrix<α, -1, 3>`): only the row count is kept at run time. -/
structure MatrixX3 (α : Type) where
  rows : Nat
  data : List α
deriving DecidableEq, Repr

/-- Column count of a `MatrixX3`, a compile-time constant. -/
def MatrixX3.cols {α : Type} (_ : MatrixX3 α) : Nat := 3

/-- Coefficient `(i, j)` of a column-major `MatrixX3`. -/
def MatrixX3.coeff {α : Type} (v : MatrixX3 α) (i j : Nat) : Option α :=
  v.data[i + j * v.rows]?

/-- The default-constructed `Eigen::MatrixXi{}`: zero rows, zero columns. -/
def MatrixX.empty {α : Type} : MatrixX α := ⟨0, 0, []⟩

/-- Model of `setZero` on an `Eigen::MatrixX3d`: dimensions kept, every coefficient zero. -/
def MatrixX3.setZero (v : MatrixX3 scalar_type) : MatrixX3 scalar_type :=
  { rows := v.rows, data := List.replicate (v.rows * 3) 0 }

/-- Model of `setOnes` on an `Eigen::VectorXd` with `n` entries. -/
def setOnes (n : Nat) : List scalar_type := List.replicate n 1

abbrev positions_type : Type := MatrixX scalar_type
abbrev masses_type : Type := List scalar_type
abbrev velocities_type : Type := MatrixX3 scalar_type
abbrev faces_type : Type := MatrixX Int
abbrev elements_type : Type := MatrixX Int

/-- The mass written by `fix` and `toggle_fixed` for a fixed vertex, `scalar_type{1e10}`. -/
def sentinel_mass : scalar_type := 10000000000

/-- The private data members of `pd::deformable_mesh_t`, in declaration order. -/
structure deformable_mesh_t (κ : Type) where
  p0_ : positions_type
  p_ : positions_type
  F_ : faces_type
  E_ : elements_type
  m_ : masses_type
  v_ : velocities_type
  constraints_ : List κ
  fixed_ : List Bool
deriving DecidableEq

namespace deformable_mesh_t

variable {κ : Type}

/-- Constructor with explicit masses (`deformable_mesh.h`, lines 25-40).  The velocity is
allocated with `positions.rows()` rows and zeroed in the body. -/
def mk_masses (positions : positions_type) (faces : faces_type) (elements : elements_type)
    (masses : masses_type) : deformable_mesh_t κ :=
  { p0_ := positions
    p_ := positions
    F_ := faces
    E_ := elements
    m_ := masses
    v_ := MatrixX3.setZero ⟨positions.rows, []⟩
    constraints_ := []
    fixed_ := List.replicate positions.rows false }

/-- Constructor with uniform mass (`deformable_mesh.h`, lines 42-57).  The argument
`elements` is optional in the source, with default `elements_type{}`; `none` stands for
the omitted argument. -/
def mk_uniform (positions : positions_type) (faces : faces_type)
    (elements : Option elements_type) : deformable_mesh_t κ :=
  { p0_ := positions
    p_ := positions
    F_ := faces
    E_ := elements.getD MatrixX.empty
    m_ := setOnes positions.rows
    v_ := MatrixX3.setZero ⟨positions.rows, []⟩
    constraints_ := []
    fixed_ := List.replicate positions.rows false }

/-- Accessor `is_fixed(i)`: the flag `fixed_[i]`, defined for `i` inside the vector. -/
def is_fixed (M : deformable_mesh_t κ) (i : Nat) : Option Bool := M.fixed_[i]?

/-- Accessor `mass()(i)`: the entry `m_(i)`, defined for `i` inside the vector. -/
def mass (M : deformable_mesh_t κ) (i : Nat) : Option scalar_type := M.m_[i]?

/-- Member `fix(i)`: `fixed_[i] = true; m_(i) = 1e10`. -/
def fix (M : deformable_mesh_t κ) (i : Nat) : deformable_mesh_t κ :=
  { M with fixed_ := M.fixed_.set i true, m_ := M.m_.set i sentinel_mass }

/-- Member `unfix(i, mass)`: `fixed_[i] = false; m_(i) = mass`. -/
def unfix (M : deformable_mesh_t κ) (i : Nat) (mass : scalar_type) : deformable_mesh_t κ :=
  { M with fixed_ := M.fixed_.set i false, m_ := M.m_.set i mass }

/-- Member `toggle_fixed(i, mass_when_unfixed)`: the flag is negated in place, then the
mass is chosen by the new value of the flag. -/
def toggle_fixed (M : deformable_mesh_t κ) (i : Nat) (mass_when_unfixed : scalar_type) :
    deformable_mesh_t κ :=
  let fixed1 := M.fixed_.set i (!(M.fixed_.getD i false))
  if fixed1.getD i false then
    { M with fixed_ := fixed1, m_ := M.m_.set i sentinel_mass }
  else
    { M with fixed_ := fixed1, m_ := M.m_.set i mass_when_unfixed }

/-- Member `immobilize()`: `v_.setZero()`. -/
def immobilize (M : deformable_mesh_t κ) : deformable_mesh_t κ :=
  { M with v_ := M.v_.setZero }

/-- One call of a mutating member of the mesh, with its arguments. -/
inductive mesh_call where
  | fix (i : Nat)
  | unfix (i : Nat) (mass : scalar_type)
  | toggle_fixed (i : Nat) (mass_when_unfixed : scalar_type)
  | immobilize
deriving DecidableEq, Repr

/-- The member call `c` executed on the mesh `M`. -/
def apply_call (M : deformable_mesh_t κ) : mesh_call → deformable_mesh_t κ
  | .fix i => M.fix i
  | .unfix i mass => M.unfix i mass
  | .toggle_fixed i mass => M.toggle_fixed i mass
  | .immobilize => M.immobilize

/-- A finite sequence of member calls executed in order. -/
def run_calls (M : deformable_mesh_t κ) (cs : List mesh_call) : deformable_mesh_t κ :=
  cs.foldl apply_call M

/-- The vertex index `i` is in range: it lies inside both containers that `fix`, `unfix`
and `toggle_fixed` subscript with it, `fixed_` and `m_`. -/
def valid_index (M : deformable_mesh_t κ) (i : Nat) : Prop :=
  i < M.fixed_.length ∧ i < M.m_.length

instance (M : deformable_mesh_t κ) (i : Nat) : Decidable (valid_index M i) := by
  unfold valid_index; infer_instance

/-- The vertex index of a call, if it has one, is in range. -/
def in_range (M : deformable_mesh_t κ) : mesh_call → Prop
  | .fix i => valid_index M i
  | .unfix i _ => valid_index M i
  | .toggle_fixed i _ => valid_index M i
  | .immobilize => True

instance (M : deformable_mesh_t κ) (c : mesh_call) : Decidable (in_range M c) := by
  cases c <;> unfold in_range <;> infer_instance

/-- The mass a call hands to the mesh, if it hands one, is strictly positive. -/
def supplies_positive_mass : mesh_call → Prop
  | .fix _ => True
  | .unfix _ mass => 0 < mass
  | .toggle_fixed _ mass => 0 < mass
  | .immobilize => True

instance (c : mesh_call) : Decidable (supplies_positive_mass c) := by
  cases c <;> unfold supplies_positive_mass <;> infer_instance

/-- Every vertex flagged fixed has the sentinel mass. -/
def fixed_have_sentinel_mass (M : deformable_mesh_t κ) : Prop :=
  ∀ j, M.is_fixed j = some true → M.mass j = some sentinel_mass

/-- Positions, rest positions, velocities, masses and flags have one vertex count. -/
def vertex_counts_agree (M : deformable_mesh_t κ) : Prop :=
  M.p0_.rows = M.p_.rows ∧ M.v_.rows = M.p_.rows ∧ M.m_.length = M.p_.rows ∧
    M.fixed_.length = M.p_.rows

instance (M : deformable_mesh_t κ) : Decidable (vertex_counts_agree M) := by
  unfold vertex_counts_agree; infer_instance

/-- Every entry of the mass vector is strictly positive. -/
def masses_positive (M : deformable_mesh_t κ) : Prop := ∀ x ∈ M.m_, 0 < x

instance (M : deformable_mesh_t κ) : Decidable (masses_positive M) := by
  unfold masses_positive; infer_instance

/-- The mesh comes out of one of the two constructors. -/
inductive constructed : deformable_mesh_t κ → Prop
  | masses (positions : positions_type) (faces : faces_type) (elements : elements_type)
      (masses : masses_type) : constructed (mk_masses positions faces elements masses)
  | uniform (positions : positions_type) (faces : faces_type)
      (elements : Option elements_type) : constructed (mk_uniform positions faces elements)

/-- A small mesh used to instantiate the theorems: two vertices at `(0,0,0)` and
`(1,0,0)`, no face, no element, uniform mass. -/
def sample_mesh : deformable_mesh_t Unit :=
  mk_uniform ⟨2, 3, [0, 1, 0, 0, 0, 0]⟩ ⟨0, 3, []⟩ none

/-- A one-vertex mesh built by the explicit-mass constructor from a mass vector with two
entries. -/
def mismatched_mesh : deformable_mesh_t Unit :=
  mk_masses ⟨1, 3, [0, 0, 0]⟩ ⟨0, 3, []⟩ ⟨0, 4, []⟩ [1, 1]

end deformable_mesh_t

end pd

namespace ui

/-- The fields of `ui::physics_params_t` that the constraint panel reads.  The header
`ui/physics_params.h` declares the type; the field names are those used in `main.cpp`. -/
structure physics_params_t where
  edge_constraint_wi : ℚ
  deformation_gradient_constraint_wi : ℚ
  corotated_deformation_gradient_constraint_wi : ℚ
  shape_targeting_constraint_wi : ℚ
  strain_limit_constraint_wi : ℚ
deriving DecidableEq, Repr

end ui

namespace driver

/-- A call the "Apply" action of the constraint panel makes on the mesh or on the solver,
with the arguments it passes. -/
inductive call where
  | immobilize
  | constraints_clear
  | set_dirty
  | constrain_edge_lengths (wi : ℚ)
  | constrain_deformation_gradient (wi : ℚ)
  | constrain_corotated_deformation_gradient (wi : ℚ)
  | constrain_shape_targeting (wi : ℚ)
  | constrain_strain (min max wi : ℚ)
deriving DecidableEq, Repr

/-- The call is one of the `constrain_*` factories of the mesh. -/
def call.is_factory : call → Bool
  | .constrain_edge_lengths _ => true
  | .constrain_deformation_gradient _ => true
  | .constrain_corotated_deformation_gradient _ => true
  | .constrain_shape_targeting _ => true
  | .constrain_strain _ _ _ => true
  | _ => false

/-- The call changes the constraint list of the mesh: `constraints().clear()` or a
factory. -/
def call.mutates_constraints : call → Bool
  | .constraints_clear => true
  | c => c.is_factory

/-- The static `std::array<bool, 5u> is_constraint_type_active` of the panel. -/
abbrev active_flags : Type := Fin 5 → Bool

/-- Initial value of the static array: zero initialised, every entry `false`. -/
def active_flags.initial : active_flags := fun _ => false

/-- The five "Active" checkboxes of the panel, by the constraint type they sit under. -/
inductive checkbox where
  | EdgeLength
  | DeformationGradient
  | CorotatedDeformationGradient
  | ShapeTargeting
  | StrainLimit
deriving DecidableEq, Repr

/-- The entry of `is_constraint_type_active` whose address each `ImGui::Checkbox` call
receives (`main.cpp`, lines 238, 250, 263, 272 and 300). -/
def checkbox.bound_index : checkbox → Fin 5
  | .EdgeLength => 0
  | .DeformationGradient => 1
  | .CorotatedDeformationGradient => 2
  | .ShapeTargeting => 3
  | .StrainLimit => 3

/-- What a checkbox displays: the boolean it is bound to. -/
def checked (a : active_flags) (b : checkbox) : Bool := a b.bound_index

/-- A click on a checkbox negates the boolean it is bound to. -/
def click (a : active_flags) (b : checkbox) : active_flags :=
  Function.update a b.bound_index (!(a b.bound_index))

/-- A sequence of clicks, starting from the given flags. -/
def clicks (a : active_flags) (bs : List checkbox) : active_flags := bs.foldl click a

/-- The body of `if (ImGui::Button("Apply##Constraints", ...))` (`main.cpp`, lines
315-345): the calls made, in program order. -/
def apply_constraints (a : active_flags) (physics_params : ui.physics_params_t)
    (sigma_min sigma_max : ℚ) : List call :=
  [call.immobilize, call.constraints_clear, call.set_dirty]
    ++ (if a 0 then [call.constrain_edge_lengths physics_params.edge_constraint_wi] else [])
    ++ (if a 1 then
          [call.constrain_deformation_gradient
            physics_params.deformation_gradient_constraint_wi]
        else [])
    ++ (if a 2 then
          [call.constrain_corotated_deformation_gradient
            physics_params.corotated_deformation_gradient_constraint_wi]
        else [])
    ++ (if a 3 then
          [call.constrain_shape_targeting physics_params.shape_targeting_constraint_wi]
        else [])
    ++ (if a 4 then
          [call.constrain_strain sigma_min sigma_max
            physics_params.strain_limit_constraint_wi]
        else [])

/-- Every call of the trace that changes the constraint list is followed, later in the
trace, by a `set_dirty` call. -/
def mutations_followed_by_set_dirty (tr : List call) : Prop :=
  ∀ k < tr.length, (tr.getD k call.immobilize).mutates_constraints = true →
    ∃ k2 < tr.length, k < k2 ∧ tr[k2]? = some call.set_dirty

instance (tr : List call) : Decidable (mutations_followed_by_set_dirty tr) := by
  unfold mutations_followed_by_set_dirty; infer_instance

/-- Parameter values used to instantiate the theorems: every weight `1000000`. -/
def sample_params : ui.physics_params_t :=
  { edge_constraint_wi := 1000000
    deformation_gradient_constraint_wi := 1000000
    corotated_deformation_gradient_constraint_wi := 1000000
    shape_targeting_constraint_wi := 1000000
    strain_limit_constraint_wi := 1000000 }

end driver

namespace pd

/-- Coefficient `(i, j)` of a column-major dynamic matrix of scalars, read from the buffer
at position `i + j * rows` (and `0` outside the buffer). -/
def MatrixX.coeff (V : MatrixX scalar_type) (i j : Nat) : scalar_type :=
  V.data.getD (i + j * V.rows) 0

/-- Column `j` of the matrix, top to bottom. -/
def MatrixX.col (V : MatrixX scalar_type) (j : Nat) : List scalar_type :=
  (List.range V.rows).map (fun i => V.coeff i j)

/-- Entry `j` of `V.colwise().mean()`: the sum of column `j` divided by the number of
rows. -/
def MatrixX.colwise_mean (V : MatrixX scalar_type) (j : Nat) : scalar_type :=
  (V.col j).sum / V.rows

/-- Model of `V.rowwise() -= v_mean`: the coefficient at buffer position `k`, which lies in
column `k / rows`, loses the entry of `v_mean` for that column. -/
def MatrixX.rowwise_sub (V : MatrixX scalar_type) (v_mean : Nat → scalar_type) :
    MatrixX scalar_type :=
  { V with data := V.data.mapIdx (fun k x => x - v_mean (k / V.rows)) }

/-- Model of `V.maxCoeff()`: Eigen visits the coefficients starting from the first one and
keeps a value when it is greater than the current result; an empty matrix has no
maximum. -/
def MatrixX.maxCoeff (V : MatrixX scalar_type) : Option scalar_type :=
  match V.data with
  | [] => none
  | x :: xs => some (xs.foldl (fun res value => if res < value then value else res) x)

/-- Model of `V.minCoeff()`: as `maxCoeff`, keeping a value when it is less than the
current result. -/
def MatrixX.minCoeff (V : MatrixX scalar_type) : Option scalar_type :=
  match V.data with
  | [] => none
  | x :: xs => some (xs.foldl (fun res value => if value < res then value else res) x)

/-- Model of `V.array() /= s`: every coefficient divided by the scalar. -/
def MatrixX.array_div (V : MatrixX scalar_type) (s : scalar_type) : MatrixX scalar_type :=
  { V with data := V.data.map (fun x => x / s) }

end pd

namespace driver

open pd

/-- The lambda `rescale` of `main` (`main.cpp`, lines 58-62), in exact arithmetic.  The
column means are stored in an `Eigen::RowVector3d`, which needs a matrix of three columns;
`maxCoeff` and `minCoeff` need a matrix that is not empty.  Outside these cases the model
has no result. -/
def rescale (V : MatrixX scalar_type) : Option (MatrixX scalar_type) :=
  if V.cols = 3 then
    let v_mean : Nat → scalar_type := fun j => V.colwise_mean j
    let V1 := V.rowwise_sub v_mean
    match V1.maxCoeff, V1.minCoeff with
    | some hi, some lo => some (V1.array_div (hi - lo))
    | _, _ => none
  else
    none

/-- A vertex matrix with the two vertices `(0,0,0)` and `(2,0,0)`. -/
def sample_vertices : MatrixX scalar_type := ⟨2, 3, [0, 2, 0, 0, 0, 0]⟩

end driver

/-! ## Theorems on the deformable mesh -/

namespace pd

namespace deformable_mesh_t

variable {κ : Type}

theorem apply_call_fixed_length (M : deformable_mesh_t κ) (c : mesh_call) :
    (apply_call M c).fixed_.length = M.fixed_.length := by
  cases c <;> simp [apply_call, fix, unfix, toggle_fixed, immobilize]
  split <;> simp

theorem apply_call_m_length (M : deformable_mesh_t κ) (c : mesh_call) :
    (apply_call M c).m_.length = M.m_.length := by
  cases c <;> simp [apply_call, fix, unfix, toggle_fixed, immobilize]
  split <;> simp

theorem apply_call_rows (M : deformable_mesh_t κ) (c : mesh_call) :
    (apply_call M c).p0_ = M.p0_ ∧ (apply_call M c).p_ = M.p_ ∧
      (apply_call M c).v_.rows = M.v_.rows := by
  cases c <;> simp [apply_call, fix, unfix, toggle_fixed, immobilize, MatrixX3.setZero]
  split <;> simp

theorem in_range_apply_call (M : deformable_mesh_t κ) (c d : mesh_call)
    (h : in_range M d) : in_range (apply_call M c) d := by
  cases d <;> simp_all [in_range, valid_index, apply_call_fixed_length, apply_call_m_length]

/-- An invariant that holds at the start and is kept by every in-range call holds after
any finite sequence of in-range calls. -/
theorem run_calls_induction (P : deformable_mesh_t κ → Prop)
    (step : ∀ M c, P M → in_range M c → P (apply_call M c))
    (M : deformable_mesh_t κ) (h0 : P M) (cs : List mesh_call)
    (hr : ∀ c ∈ cs, in_range M c) : P (run_calls M cs) := by
  induction cs generalizing M with
  | nil => simpa [run_calls] using h0
  | cons c cs ih =>
    have hc : in_range M c := hr c (by simp)
    have hrest : ∀ d ∈ cs, in_range (apply_call M c) d := fun d hd =>
      in_range_apply_call M c d (hr d (by simp [hd]))
    simpa [run_calls] using ih (apply_call M c) (step M c h0 hc) hrest

theorem sentinel_kept (M : deformable_mesh_t κ) (c : mesh_call)
    (h : fixed_have_sentinel_mass M) (hc : in_range M c) :
    fixed_have_sentinel_mass (apply_call M c) := by
  intro j
  cases c with
  | fix i =>
    obtain ⟨_, hm⟩ := hc
    by_cases hij : i = j
    · subst hij; simp [apply_call, fix, is_fixed, mass, hm]
    · simpa [apply_call, fix, is_fixed, mass, List.getElem?_set_ne hij] using h j
  | unfix i m0 =>
    obtain ⟨hf, _⟩ := hc
    by_cases hij : i = j
    · subst hij; simp [apply_call, unfix, is_fixed, mass, hf]
    · simpa [apply_call, unfix, is_fixed, mass, List.getElem?_set_ne hij] using h j
  | toggle_fixed i m0 =>
    obtain ⟨hf, hm⟩ := hc
    by_cases hij : i = j
    · subst hij
      cases hb : M.fixed_[i] <;>
        simp [apply_call, toggle_fixed, is_fixed, mass, hf, hm, hb, List.getD_eq_getElem?_getD]
    · have := h j
      cases hb : M.fixed_[i] <;>
        simpa [apply_call, toggle_fixed, is_fixed, mass, hf, hb, List.getD_eq_getElem?_getD,
          List.getElem?_set_ne hij] using this
  | immobilize => simpa [apply_call, immobilize, is_fixed, mass] using h j

theorem constructed_sentinel (M : deformable_mesh_t κ) (h : constructed M) :
    fixed_have_sentinel_mass M := by
  intro j
  cases h <;> simp [mk_masses, mk_uniform, is_fixed, List.getElem?_replicate]

theorem positive_kept (M : deformable_mesh_t κ) (c : mesh_call)
    (h : masses_positive M) (hc : supplies_positive_mass c) :
    masses_positive (apply_call M c) := by
  have hs : (0 : scalar_type) < sentinel_mass := by norm_num [sentinel_mass]
  have key : ∀ (i : Nat) (a : scalar_type), 0 < a → ∀ x ∈ M.m_.set i a, 0 < x := by
    intro i a ha x hx
    rcases List.mem_or_eq_of_mem_set hx with hx | hx
    · exact h x hx
    · exact hx ▸ ha
  cases c with
  | fix i => exact key i _ hs
  | unfix i m0 => exact key i m0 hc
  | toggle_fixed i m0 =>
    intro x hx
    simp only [apply_call, toggle_fixed] at hx
    split at hx
    · exact key i _ hs x hx
    · exact key i m0 hc x hx
  | immobilize => exact h

/-- C1. Sentinel-mass invariant: on a mesh built by either constructor and then changed by
any finite sequence of `fix`, `unfix`, `toggle_fixed` and `immobilize` calls whose vertex
indices are in range, every vertex whose fixed flag is true has mass exactly `1e10`. -/
theorem sentinel_mass_invariant (M : deformable_mesh_t κ) (hM : constructed M)
    (cs : List mesh_call) (hr : ∀ c ∈ cs, in_range M c) :
    ∀ j, (run_calls M cs).is_fixed j = some true →
      (run_calls M cs).mass j = some sentinel_mass :=
  run_calls_induction fixed_have_sentinel_mass sentinel_kept M (constructed_sentinel M hM) cs hr

/-- Instance of C1: vertex 1 of the sample mesh ends fixed after a mixed call sequence and
has the sentinel mass. -/
theorem sentinel_mass_invariant_witness :
    (run_calls sample_mesh
        [.fix 0, .toggle_fixed 1 2, .unfix 0 (1 / 2), .immobilize, .toggle_fixed 1 3,
          .fix 1]).is_fixed 1 = some true ∧
      (run_calls sample_mesh
        [.fix 0, .toggle_fixed 1 2, .unfix 0 (1 / 2), .immobilize, .toggle_fixed 1 3,
          .fix 1]).mass 1 = some sentinel_mass := by
  have hfix : (run_calls sample_mesh
        [.fix 0, .toggle_fixed 1 2, .unfix 0 (1 / 2), .immobilize, .toggle_fixed 1 3,
          .fix 1]).is_fixed 1 = some true := by
    simp [run_calls, apply_call, sample_mesh, mk_uniform, fix, unfix, toggle_fixed,
      immobilize, is_fixed]
  exact ⟨hfix, sentinel_mass_invariant sample_mesh (constructed.uniform _ _ _) _
    (by simp [in_range, valid_index, sample_mesh, mk_uniform, setOnes]) 1 hfix⟩

/-- C2, as stated, fails: the explicit-mass constructor copies a mass vector of any
length, so a one-vertex mesh built with two masses has two mass entries and one row of
positions, before and after `fix(0)`. -/
theorem vertex_count_counterexample :
    in_range mismatched_mesh (.fix 0) ∧
      ¬ vertex_counts_agree (run_calls mismatched_mesh [.fix 0]) := by
  constructor
  · simp [in_range, valid_index, mismatched_mesh, mk_masses]
  · simp [vertex_counts_agree, run_calls, apply_call, fix, mismatched_mesh, mk_masses]

/-- C2, amended. Vertex-count invariant: on a mesh built by the uniform-mass constructor,
or by the explicit-mass constructor from a mass vector with as many entries as the
positions have rows, and then changed by any finite sequence of in-range `fix`, `unfix`,
`toggle_fixed` and `immobilize` calls, the positions, rest positions, velocities, masses
and fixed flags all have the same number of vertices. -/
theorem vertex_count_invariant (positions : positions_type) (faces : faces_type)
    (elements : elements_type) (optional_elements : Option elements_type)
    (masses : masses_type) (M : deformable_mesh_t κ)
    (hM : M = mk_uniform positions faces optional_elements ∨
      (M = mk_masses positions faces elements masses ∧ masses.length = positions.rows))
    (cs : List mesh_call) (hr : ∀ c ∈ cs, in_range M c) :
    vertex_counts_agree (run_calls M cs) := by
  refine run_calls_induction vertex_counts_agree ?_ M ?_ cs hr
  · intro N c hN _
    obtain ⟨h0, hp, hv⟩ := apply_call_rows N c
    simpa [vertex_counts_agree, h0, hp, hv, apply_call_fixed_length, apply_call_m_length]
      using hN
  · rcases hM with h | ⟨h, hlen⟩ <;> subst h <;>
      simp [vertex_counts_agree, mk_uniform, mk_masses, setOnes, MatrixX3.setZero, *]

/-- Instance of the amended C2 on a two-vertex mesh with explicit masses. -/
theorem vertex_count_invariant_witness :
    vertex_counts_agree
      (run_calls (mk_masses ⟨2, 3, [0, 1, 0, 0, 0, 0]⟩ ⟨0, 3, []⟩ MatrixX.empty [3, 4] :
          deformable_mesh_t Unit)
        [.fix 1, .immobilize, .toggle_fixed 0 5, .unfix 1 7]) :=
  vertex_count_invariant ⟨2, 3, [0, 1, 0, 0, 0, 0]⟩ ⟨0, 3, []⟩ MatrixX.empty none [3, 4] _
    (Or.inr ⟨rfl, rfl⟩) _ (by simp [in_range, valid_index, mk_masses])

/-- C3, as stated, fails: `unfix` stores whatever mass it is given, so `unfix(0, 0)` on a
mesh from the uniform-mass constructor leaves a mass entry that is not positive. -/
theorem mass_positivity_counterexample :
    in_range sample_mesh (.unfix 0 0) ∧
      ¬ masses_positive (run_calls sample_mesh [.unfix 0 0]) := by
  constructor
  · simp [in_range, valid_index, sample_mesh, mk_uniform, setOnes]
  · simp [masses_positive, run_calls, apply_call, unfix, sample_mesh, mk_uniform, setOnes]

/-- C3, amended. Mass positivity: on a mesh built by the uniform-mass constructor and then
changed by any finite sequence of in-range `fix(i)`, `unfix(i, m)` and
`toggle_fixed(i, m)` calls in which every supplied mass `m` is strictly positive, every
entry of the mass vector is strictly positive. -/
theorem mass_positivity (positions : positions_type) (faces : faces_type)
    (elements : Option elements_type) (cs : List mesh_call)
    (h : ∀ c ∈ cs,
      in_range (mk_uniform positions faces elements : deformable_mesh_t κ) c ∧
        supplies_positive_mass c) :
    ∀ x ∈ (run_calls (mk_uniform positions faces elements : deformable_mesh_t κ) cs).m_,
      0 < x := by
  have h0 : masses_positive (mk_uniform positions faces elements : deformable_mesh_t κ) := by
    intro x hx
    simp only [mk_uniform, setOnes] at hx
    rw [List.eq_of_mem_replicate hx]
    exact one_pos
  have hpos : ∀ c ∈ cs, supplies_positive_mass c := fun c hc => (h c hc).2
  clear h
  generalize (mk_uniform positions faces elements : deformable_mesh_t κ) = M at h0 ⊢
  induction cs generalizing M with
  | nil => simpa [run_calls] using h0
  | cons c cs ih =>
    have hc := hpos c (by simp)
    simpa [run_calls] using
      ih (fun d hd => hpos d (by simp [hd])) (apply_call M c) (positive_kept M c h0 hc)

/-- Instance of the amended C3 on the sample mesh. -/
theorem mass_positivity_witness :
    masses_positive (run_calls sample_mesh
        [.fix 0, .unfix 0 (1 / 4), .toggle_fixed 1 2, .toggle_fixed 1 (3 / 2)]) :=
  mass_positivity ⟨2, 3, [0, 1, 0, 0, 0, 0]⟩ ⟨0, 3, []⟩ none _
    (by simp [in_range, valid_index, supplies_positive_mass, mk_uniform, setOnes])

theorem toggle_fixed_cases (M : deformable_mesh_t κ) (i : Nat) (m : scalar_type)
    (hf : i < M.fixed_.length) :
    (M.fixed_[i]? = some false → M.toggle_fixed i m = M.fix i) ∧
      (M.fixed_[i]? = some true → M.toggle_fixed i m = M.unfix i m) := by
  constructor <;> intro h <;>
    simp [toggle_fixed, fix, unfix, List.getD_eq_getElem?_getD, h, hf]

/-- C4. `toggle_fixed` agrees with `fix` and `unfix`: for every mesh, every in-range vertex
`i` and every mass `m`, `toggle_fixed(i, m)` gives the state of `fix(i)` when vertex `i`
is not fixed beforehand, and the state of `unfix(i, m)` when it is fixed beforehand. -/
theorem toggle_fixed_agrees (M : deformable_mesh_t κ) (i : Nat) (m : scalar_type)
    (hi : valid_index M i) :
    (M.is_fixed i = some false → M.toggle_fixed i m = M.fix i) ∧
      (M.is_fixed i = some true → M.toggle_fixed i m = M.unfix i m) :=
  ⟨(toggle_fixed_cases M i m hi.1).1, (toggle_fixed_cases M i m hi.1).2⟩

/-- Instance of C4 on the sample mesh: vertex 0 is free at first, and fixed after
`fix(0)`. -/
theorem toggle_fixed_agrees_witness :
    sample_mesh.toggle_fixed 0 (5 / 2) = sample_mesh.fix 0 ∧
      (sample_mesh.fix 0).toggle_fixed 0 (5 / 2) = (sample_mesh.fix 0).unfix 0 (5 / 2) :=
  ⟨(toggle_fixed_agrees sample_mesh 0 (5 / 2)
      (by simp [valid_index, sample_mesh, mk_uniform, setOnes])).1
      (by simp [is_fixed, sample_mesh, mk_uniform]),
    (toggle_fixed_agrees (sample_mesh.fix 0) 0 (5 / 2)
      (by simp [valid_index, fix, sample_mesh, mk_uniform, setOnes])).2
      (by simp [is_fixed, fix, sample_mesh, mk_uniform])⟩

/-- C5. Pin/unpin round trip: for every mesh and every in-range vertex `i`, `fix(i)`
followed by `unfix(i, m)` leaves vertex `i` not fixed with mass exactly `m`; and when
vertex `i` was not fixed beforehand and `m` is its mass before `fix(i)`, the whole mesh
state after the two calls equals the state before them. -/
theorem fix_unfix_round_trip (M : deformable_mesh_t κ) (i : Nat) (m : scalar_type)
    (hi : valid_index M i) :
    ((M.fix i).unfix i m).is_fixed i = some false ∧
      ((M.fix i).unfix i m).mass i = some m ∧
      (M.is_fixed i = some false → M.mass i = some m → (M.fix i).unfix i m = M) := by
  obtain ⟨hf, hm⟩ := hi
  refine ⟨by simp [fix, unfix, is_fixed, hf], by simp [fix, unfix, mass, hm], ?_⟩
  intro h1 h2
  simp only [is_fixed, mass] at h1 h2
  have e1 : M.fixed_.set i false = M.fixed_ := by
    apply List.ext_getElem? ; intro j
    by_cases hij : i = j
    · subst hij; simp [hf, h1]
    · simp [List.getElem?_set_ne hij]
  have e2 : M.m_.set i m = M.m_ := by
    apply List.ext_getElem? ; intro j
    by_cases hij : i = j
    · subst hij; simp [hm, h2]
    · simp [List.getElem?_set_ne hij]
  cases M
  simp_all [fix, unfix]

/-- Instance of C5 on the sample mesh, whose vertex 1 is free with mass 1. -/
theorem fix_unfix_round_trip_witness :
    ((sample_mesh.fix 1).unfix 1 1).is_fixed 1 = some false ∧
      ((sample_mesh.fix 1).unfix 1 1).mass 1 = some 1 ∧
      (sample_mesh.fix 1).unfix 1 1 = sample_mesh :=
  have h := fix_unfix_round_trip sample_mesh 1 1
    (by simp [valid_index, sample_mesh, mk_uniform, setOnes])
  ⟨h.1, h.2.1, h.2.2 (by simp [is_fixed, sample_mesh, mk_uniform])
    (by simp [mass, sample_mesh, mk_uniform, setOnes])⟩

theorem setZero_coeff (v : velocities_type) (i : Fin v.rows) (j : Fin 3) :
    v.setZero.coeff i j = some 0 := by
  obtain ⟨i, hi⟩ := i
  obtain ⟨j, hj⟩ := j
  have hlt : i + j * v.rows < v.rows * 3 := by
    interval_cases j <;> omega
  simp [MatrixX3.coeff, MatrixX3.setZero, List.getElem?_replicate, hlt]

/-- C6. Uniform-mass construction: for every positions matrix with `n` rows, every faces
matrix and every optional elements matrix, the constructor without a mass argument gives
a mesh whose current and rest positions are the given positions, whose faces and elements
are the given ones (elements empty when omitted), whose mass vector has `n` entries all
equal to 1, whose velocity has `n` rows and only zero coefficients, whose `n` fixed flags
are all false, and whose constraint list is empty. -/
theorem mk_uniform_spec (positions : positions_type) (faces : faces_type)
    (elements : Option elements_type) :
    (mk_uniform positions faces elements : deformable_mesh_t κ).p_ = positions ∧
      (mk_uniform positions faces elements : deformable_mesh_t κ).p0_ = positions ∧
      (mk_uniform positions faces elements : deformable_mesh_t κ).F_ = faces ∧
      (∀ E : elements_type,
        (mk_uniform positions faces (some E) : deformable_mesh_t κ).E_ = E) ∧
      (mk_uniform positions faces none : deformable_mesh_t κ).E_ = ⟨0, 0, []⟩ ∧
      (mk_uniform positions faces elements : deformable_mesh_t κ).m_
        = List.replicate positions.rows 1 ∧
      (mk_uniform positions faces elements : deformable_mesh_t κ).m_.length
        = positions.rows ∧
      (mk_uniform positions faces elements : deformable_mesh_t κ).v_.rows
        = positions.rows ∧
      (mk_uniform positions faces elements : deformable_mesh_t κ).v_.cols = 3 ∧
      (∀ (i : Fin positions.rows) (j : Fin 3),
        (mk_uniform positions faces elements : deformable_mesh_t κ).v_.coeff i j = some 0) ∧
      (mk_uniform positions faces elements : deformable_mesh_t κ).fixed_
        = List.replicate positions.rows false ∧
      (mk_uniform positions faces elements : deformable_mesh_t κ).fixed_.length
        = positions.rows ∧
      (mk_uniform positions faces elements : deformable_mesh_t κ).constraints_ = [] := by
  refine ⟨rfl, rfl, rfl, fun _ => rfl, rfl, rfl, ?_, rfl, rfl, ?_, rfl, ?_, rfl⟩
  · simp [mk_uniform, setOnes]
  · exact fun i j => setZero_coeff ⟨positions.rows, []⟩ i j
  · simp [mk_uniform]

/-- C7. `immobilize` zeroes the velocity and nothing else: for every mesh, after
`immobilize()` every coefficient of the velocity is 0 and the velocity keeps its
dimensions, while current positions, rest positions, masses, fixed flags, faces, elements
and the constraint list are unchanged; calling it twice gives the state of calling it
once. -/
theorem immobilize_spec (M : deformable_mesh_t κ) :
    (∀ (i : Fin M.v_.rows) (j : Fin 3), M.immobilize.v_.coeff i j = some 0) ∧
      M.immobilize.v_.data = List.replicate (M.v_.rows * 3) 0 ∧
      M.immobilize.v_.rows = M.v_.rows ∧ M.immobilize.v_.cols = M.v_.cols ∧
      M.immobilize.p_ = M.p_ ∧ M.immobilize.p0_ = M.p0_ ∧ M.immobilize.m_ = M.m_ ∧
      M.immobilize.fixed_ = M.fixed_ ∧ M.immobilize.F_ = M.F_ ∧ M.immobilize.E_ = M.E_ ∧
      M.immobilize.constraints_ = M.constraints_ ∧
      M.immobilize.immobilize = M.immobilize :=
  ⟨fun i j => setZero_coeff M.v_ i j, rfl, rfl, rfl, rfl, rfl, rfl, rfl, rfl, rfl, rfl, rfl⟩

theorem fix_frame (M : deformable_mesh_t κ) (i : Nat) (b : Bool) (a : scalar_type) :
    let N : deformable_mesh_t κ := { M with fixed_ := M.fixed_.set i b, m_ := M.m_.set i a }
    (∀ j, j ≠ i → N.is_fixed j = M.is_fixed j ∧ N.mass j = M.mass j) ∧
      N.fixed_.length = M.fixed_.length ∧ N.m_.length = M.m_.length ∧
      N.p_ = M.p_ ∧ N.p0_ = M.p0_ ∧ N.v_ = M.v_ ∧ N.F_ = M.F_ ∧ N.E_ = M.E_ ∧
      N.constraints_ = M.constraints_ := by
  refine ⟨fun j hj => ?_, ?_⟩
  · simp [is_fixed, mass, List.getElem?_set_ne (Ne.symm hj)]
  · simp

/-- C9. Pinning touches only vertex `i`: for every mesh, every in-range vertex `i` and
every mass `m`, each of `fix(i)`, `unfix(i, m)` and `toggle_fixed(i, m)` leaves the fixed
flag and the mass of every other vertex, the number of flags and masses, and the current
positions, rest positions, velocities, faces, elements and constraint list unchanged. -/
theorem pinning_touches_only_vertex (M : deformable_mesh_t κ) (i : Nat) (m : scalar_type)
    (hi : valid_index M i) :
    ∀ N ∈ [M.fix i, M.unfix i m, M.toggle_fixed i m],
      (∀ j, j ≠ i → N.is_fixed j = M.is_fixed j ∧ N.mass j = M.mass j) ∧
      N.fixed_.length = M.fixed_.length ∧ N.m_.length = M.m_.length ∧
      N.p_ = M.p_ ∧ N.p0_ = M.p0_ ∧ N.v_ = M.v_ ∧ N.F_ = M.F_ ∧ N.E_ = M.E_ ∧
      N.constraints_ = M.constraints_ := by
  intro N hN
  simp only [List.mem_cons, List.mem_singleton, List.not_mem_nil, or_false] at hN
  have ht : M.toggle_fixed i m = M.fix i ∨ M.toggle_fixed i m = M.unfix i m := by
    have hf : i < M.fixed_.length := hi.1
    have hb : M.fixed_[i]? = some (M.fixed_[i]) := List.getElem?_eq_getElem hf
    cases hv : M.fixed_[i] <;> rw [hv] at hb
    · exact Or.inl ((toggle_fixed_cases M i m hf).1 hb)
    · exact Or.inr ((toggle_fixed_cases M i m hf).2 hb)
  rcases hN with h | h | h
  · subst h; exact fix_frame M i true sentinel_mass
  · subst h; exact fix_frame M i false m
  · rcases ht with h2 | h2
    · rw [h, h2]; exact fix_frame M i true sentinel_mass
    · rw [h, h2]; exact fix_frame M i false m

/-- Instance of C9 on the sample mesh: `toggle_fixed(0, 3)` leaves vertex 1 as it was. -/
theorem pinning_touches_only_vertex_witness :
    (sample_mesh.toggle_fixed 0 3).is_fixed 1 = sample_mesh.is_fixed 1 ∧
      (sample_mesh.toggle_fixed 0 3).mass 1 = sample_mesh.mass 1 ∧
      (sample_mesh.toggle_fixed 0 3).is_fixed 0 = some true ∧
      (sample_mesh.toggle_fixed 0 3).v_ = sample_mesh.v_ :=
  have h := pinning_touches_only_vertex sample_mesh 0 3
    (by simp [valid_index, sample_mesh, mk_uniform, setOnes])
    (sample_mesh.toggle_fixed 0 3) (by simp)
  ⟨(h.1 1 (by decide)).1, (h.1 1 (by decide)).2,
    by simp [toggle_fixed, is_fixed, sample_mesh, mk_uniform], h.2.2.2.2.2.1⟩

end deformable_mesh_t

end pd

/-! ## Theorems on the "Apply" action of the constraint panel -/

namespace driver

theorem clicks_strain_flag (a : active_flags) (h : a 4 = false) (bs : List checkbox) :
    clicks a bs 4 = false := by
  induction bs generalizing a with
  | nil => simpa [clicks] using h
  | cons b bs ih =>
    have hb : click a b 4 = false := by
      cases b <;> simpa [click, checkbox.bound_index, Function.update] using h
    simpa [clicks] using ih (click a b) hb

/-- C8, as stated, fails: with only the edge-length type active, "Apply" calls
`constrain_edge_lengths` last, after its one `set_dirty()`, so that mutation of the
constraint list is not followed by a `set_dirty()` call. -/
theorem set_dirty_counterexample :
    apply_constraints (click active_flags.initial .EdgeLength) sample_params
        (99 / 100) (101 / 100)
      = [.immobilize, .constraints_clear, .set_dirty, .constrain_edge_lengths 1000000] ∧
    ¬ mutations_followed_by_set_dirty
      (apply_constraints (click active_flags.initial .EdgeLength) sample_params
        (99 / 100) (101 / 100)) := by
  have htr : apply_constraints (click active_flags.initial .EdgeLength) sample_params
        (99 / 100) (101 / 100)
      = [.immobilize, .constraints_clear, .set_dirty, .constrain_edge_lengths 1000000] := by
    simp [apply_constraints, click, checkbox.bound_index, active_flags.initial,
      Function.update, sample_params]
  refine ⟨htr, ?_⟩
  rw [htr]
  intro h
  obtain ⟨k2, hk2, hlt, hget⟩ := h 3 (by simp) (by simp [call.mutates_constraints, call.is_factory])
  simp only [List.length_cons, List.length_nil] at hk2
  omega

/-- C8, amended. In the "Apply" action, for every combination of active constraint types,
the calls start with `immobilize()`, `constraints().clear()`, `solver.set_dirty()` in this
order, that `set_dirty()` is the only one of the action, and every call after it is a
`constrain_*` factory call: `clear()` is followed by `set_dirty()`, each factory call that
runs is preceded by it. -/
theorem set_dirty_once_after_clear (a : active_flags) (physics_params : ui.physics_params_t)
    (sigma_min sigma_max : ℚ) :
    (apply_constraints a physics_params sigma_min sigma_max).take 3
        = [.immobilize, .constraints_clear, .set_dirty] ∧
      ((apply_constraints a physics_params sigma_min sigma_max).drop 3).all call.is_factory
        = true ∧
      (apply_constraints a physics_params sigma_min sigma_max).count .set_dirty = 1 := by
  cases h0 : a 0 <;> cases h1 : a 1 <;> cases h2 : a 2 <;> cases h3 : a 3 <;>
    cases h4 : a 4 <;>
    simp [apply_constraints, h0, h1, h2, h3, h4, call.is_factory, List.count_cons]

/-- C10, the code at the failing input. After one click on the "Strain Limit" checkbox
from the initial panel state, that checkbox is checked, and "Apply" calls
`constrain_shape_targeting` and not `constrain_strain`; and after any sequence of clicks
on the five checkboxes, "Apply" makes no `constrain_strain` call at all. -/
theorem apply_ignores_strain_checkbox (physics_params : ui.physics_params_t)
    (sigma_min sigma_max : ℚ) :
    checked (click active_flags.initial .StrainLimit) .StrainLimit = true ∧
      apply_constraints (click active_flags.initial .StrainLimit) physics_params
          sigma_min sigma_max
        = [.immobilize, .constraints_clear, .set_dirty,
            .constrain_shape_targeting physics_params.shape_targeting_constraint_wi] ∧
      ∀ bs : List checkbox,
        call.constrain_strain sigma_min sigma_max physics_params.strain_limit_constraint_wi
          ∉ apply_constraints (clicks active_flags.initial bs) physics_params
              sigma_min sigma_max := by
  refine ⟨?_, ?_, ?_⟩
  · simp [checked, click, checkbox.bound_index, active_flags.initial]
  · simp [apply_constraints, click, checkbox.bound_index, active_flags.initial,
      Function.update]
  · intro bs
    have h4 : clicks active_flags.initial bs 4 = false := clicks_strain_flag _ rfl bs
    cases h0 : clicks active_flags.initial bs 0 <;>
      cases h1 : clicks active_flags.initial bs 1 <;>
      cases h2 : clicks active_flags.initial bs 2 <;>
      cases h3 : clicks active_flags.initial bs 3 <;>
      simp [apply_constraints, h0, h1, h2, h3, h4]

end driver

/-! ## Theorems on `rescale` -/

namespace pd

theorem index_lt (rows cols i j : Nat) (hi : i < rows) (hj : j < cols) :
    i + j * rows < rows * cols := by
  have h1 : (j + 1) * rows ≤ cols * rows := Nat.mul_le_mul_right rows hj
  have h2 : (j + 1) * rows = j * rows + rows := by ring
  rw [Nat.mul_comm rows cols]
  omega

theorem index_div (rows i j : Nat) (hi : i < rows) : (i + j * rows) / rows = j := by
  have hpos : 0 < rows := by omega
  rw [Nat.add_mul_div_right _ _ hpos, Nat.div_eq_of_lt hi, Nat.zero_add]

theorem coeff_mem (V : MatrixX scalar_type) (i j : Nat) (hi : i < V.rows) (hj : j < V.cols)
    (hlen : V.data.length = V.rows * V.cols) : V.coeff i j ∈ V.data := by
  have hk : i + j * V.rows < V.data.length := hlen ▸ index_lt V.rows V.cols i j hi hj
  simp only [MatrixX.coeff, List.getD_eq_getElem?_getD, List.getElem?_eq_getElem hk,
    Option.getD_some]
  exact List.getElem_mem hk

theorem coeff_rowwise_sub (V : MatrixX scalar_type) (m : Nat → scalar_type) (i j : Nat)
    (hi : i < V.rows) (hj : j < V.cols) (hlen : V.data.length = V.rows * V.cols) :
    (V.rowwise_sub m).coeff i j = V.coeff i j - m j := by
  have hk : i + j * V.rows < V.data.length := hlen ▸ index_lt V.rows V.cols i j hi hj
  simp [MatrixX.coeff, MatrixX.rowwise_sub, List.getD_eq_getElem?_getD,
    List.getElem?_eq_getElem hk, index_div _ i j hi]

theorem coeff_array_div (V : MatrixX scalar_type) (s : scalar_type) (i j : Nat)
    (hi : i < V.rows) (hj : j < V.cols) (hlen : V.data.length = V.rows * V.cols) :
    (V.array_div s).coeff i j = V.coeff i j / s := by
  have hk : i + j * V.rows < V.data.length := hlen ▸ index_lt V.rows V.cols i j hi hj
  simp [MatrixX.coeff, MatrixX.array_div, List.getD_eq_getElem?_getD,
    List.getElem?_eq_getElem hk]

theorem sum_map_range_sub (f : Nat → scalar_type) (c : scalar_type) (n : Nat) :
    ((List.range n).map (fun i => f i - c)).sum = ((List.range n).map f).sum - n * c := by
  induction n with
  | zero => simp
  | succ n ih =>
    simp only [List.range_succ, List.map_append, List.sum_append, ih, List.map_cons,
      List.map_nil, List.sum_cons, List.sum_nil, Nat.cast_succ]
    ring

theorem sum_map_range_div (f : Nat → scalar_type) (c : scalar_type) (n : Nat) :
    ((List.range n).map (fun i => f i / c)).sum = ((List.range n).map f).sum / c := by
  induction n with
  | zero => simp
  | succ n ih =>
    simp only [List.range_succ, List.map_append, List.sum_append, ih, List.map_cons,
      List.map_nil, List.sum_cons, List.sum_nil]
    ring

/-- After the column means are subtracted, every column of a matrix with at least one row
has mean zero. -/
theorem colwise_mean_rowwise_sub (V : MatrixX scalar_type) (j : Nat) (hr : 0 < V.rows)
    (hj : j < V.cols) (hlen : V.data.length = V.rows * V.cols) :
    (V.rowwise_sub V.colwise_mean).colwise_mean j = 0 := by
  have hcol : (V.rowwise_sub V.colwise_mean).col j
      = (List.range V.rows).map (fun i => V.coeff i j - V.colwise_mean j) := by
    apply List.map_congr_left
    intro i hi
    exact coeff_rowwise_sub V _ i j (List.mem_range.mp hi) hj hlen
  have hne : (V.rows : scalar_type) ≠ 0 := by exact_mod_cast hr.ne'
  have hrows : (V.rowwise_sub V.colwise_mean).rows = V.rows := rfl
  rw [MatrixX.colwise_mean, hcol, sum_map_range_sub, hrows]
  have : (List.map (fun i => V.coeff i j) (List.range V.rows)).sum
      = V.rows * V.colwise_mean j := by
    simp only [MatrixX.colwise_mean, MatrixX.col]
    field_simp
  rw [this]
  simp

/-- Dividing every coefficient by a scalar keeps a zero column mean. -/
theorem colwise_mean_array_div (V : MatrixX scalar_type) (s : scalar_type) (j : Nat)
    (hj : j < V.cols) (hlen : V.data.length = V.rows * V.cols)
    (h0 : V.colwise_mean j = 0) : (V.array_div s).colwise_mean j = 0 := by
  have hcol : (V.array_div s).col j = (List.range V.rows).map (fun i => V.coeff i j / s) := by
    apply List.map_congr_left
    intro i hi
    exact coeff_array_div V s i j (List.mem_range.mp hi) hj hlen
  have hrows : (V.array_div s).rows = V.rows := rfl
  have hs : (List.map (fun i => V.coeff i j) (List.range V.rows)).sum / V.rows = 0 := h0
  rw [MatrixX.colwise_mean, hcol, sum_map_range_div, hrows, div_right_comm, hs, zero_div]

theorem maxCoeff_eq (V : MatrixX scalar_type) (x : scalar_type) (xs : List scalar_type)
    (h : V.data = x :: xs) : V.maxCoeff = some (xs.foldl max x) := by
  have hf : (fun res value : scalar_type => if res < value then value else res) = max := by
    funext a b
    rw [max_def]
    split_ifs <;> first | rfl | linarith
  simp [MatrixX.maxCoeff, h, hf]

theorem minCoeff_eq (V : MatrixX scalar_type) (x : scalar_type) (xs : List scalar_type)
    (h : V.data = x :: xs) : V.minCoeff = some (xs.foldl min x) := by
  have hf : (fun res value : scalar_type => if value < res then value else res) = min := by
    funext a b
    rw [min_def]
    split_ifs <;> first | rfl | linarith
  simp [MatrixX.minCoeff, h, hf]

theorem le_foldl_max (x : scalar_type) (xs : List scalar_type) :
    ∀ y ∈ x :: xs, y ≤ xs.foldl max x := by
  induction xs generalizing x with
  | nil => intro y hy; simp at hy; simp [hy]
  | cons a as ih =>
    intro y hy
    simp only [List.foldl_cons]
    have h1 := ih (max x a) (max x a) (by simp)
    rcases List.mem_cons.mp hy with rfl | hy
    · exact le_trans (le_max_left _ _) h1
    · rcases List.mem_cons.mp hy with rfl | hy
      · exact le_trans (le_max_right _ _) h1
      · exact ih (max x a) y (by simp [hy])

theorem foldl_min_le (x : scalar_type) (xs : List scalar_type) :
    ∀ y ∈ x :: xs, xs.foldl min x ≤ y := by
  induction xs generalizing x with
  | nil => intro y hy; simp at hy; simp [hy]
  | cons a as ih =>
    intro y hy
    simp only [List.foldl_cons]
    have h1 := ih (min x a) (min x a) (by simp)
    rcases List.mem_cons.mp hy with rfl | hy
    · exact le_trans h1 (min_le_left _ _)
    · rcases List.mem_cons.mp hy with rfl | hy
      · exact le_trans h1 (min_le_right _ _)
      · exact ih (min x a) y (by simp [hy])

theorem foldl_max_map (g : scalar_type → scalar_type) (hg : Monotone g) (x : scalar_type)
    (xs : List scalar_type) : (xs.map g).foldl max (g x) = g (xs.foldl max x) := by
  induction xs generalizing x with
  | nil => rfl
  | cons a as ih => simp only [List.map_cons, List.foldl_cons, ← hg.map_max, ih]

theorem foldl_min_map (g : scalar_type → scalar_type) (hg : Monotone g) (x : scalar_type)
    (xs : List scalar_type) : (xs.map g).foldl min (g x) = g (xs.foldl min x) := by
  induction xs generalizing x with
  | nil => rfl
  | cons a as ih => simp only [List.map_cons, List.foldl_cons, ← hg.map_min, ih]

/-- The spread `maxCoeff - minCoeff` of a matrix with two different coefficients is
positive. -/
theorem spread_pos (x : scalar_type) (xs : List scalar_type) (a b : scalar_type)
    (ha : a ∈ x :: xs) (hb : b ∈ x :: xs) (hab : a ≠ b) :
    0 < xs.foldl max x - xs.foldl min x := by
  have h1 := le_foldl_max x xs a ha
  have h2 := le_foldl_max x xs b hb
  have h3 := foldl_min_le x xs a ha
  have h4 := foldl_min_le x xs b hb
  rcases lt_or_gt_of_ne hab with h | h <;> linarith

end pd

namespace driver

open pd

/-- C11. `rescale` normalises the mesh: for every vertex matrix `V` (three columns) that
has at least two distinct rows, the divisor `maxCoeff - minCoeff` of the centred matrix is
non-zero, and `rescale(V)`, in exact arithmetic, yields a matrix of the same dimensions in
which every column has mean 0, the largest coefficient minus the smallest equals 1, and
every coefficient is the centred input coefficient times one single positive factor, the
inverse of that divisor. -/
theorem rescale_normalises (V : MatrixX scalar_type) (hc : V.cols = 3)
    (hlen : V.data.length = V.rows * V.cols)
    (hrows : ∃ i1 < V.rows, ∃ i2 < V.rows, ∃ j < 3, V.coeff i1 j ≠ V.coeff i2 j) :
    ∃ R hi lo,
      (V.rowwise_sub V.colwise_mean).maxCoeff = some hi ∧
      (V.rowwise_sub V.colwise_mean).minCoeff = some lo ∧
      hi - lo ≠ 0 ∧ 0 < 1 / (hi - lo) ∧
      rescale V = some R ∧
      R.rows = V.rows ∧ R.cols = 3 ∧ R.data.length = V.rows * 3 ∧
      (∀ j : Fin 3, R.colwise_mean j = 0) ∧
      (∃ rhi rlo, R.maxCoeff = some rhi ∧ R.minCoeff = some rlo ∧ rhi - rlo = 1) ∧
      (∀ (i : Fin V.rows) (j : Fin 3),
        R.coeff i j = (V.coeff i j - V.colwise_mean j) * (1 / (hi - lo))) := by
  obtain ⟨i1, h1, i2, h2, j, hj, hne⟩ := hrows
  have hjc : j < V.cols := hc ▸ hj
  have hClen : (V.rowwise_sub V.colwise_mean).data.length
      = (V.rowwise_sub V.colwise_mean).rows * (V.rowwise_sub V.colwise_mean).cols := by
    simpa [MatrixX.rowwise_sub] using hlen
  have ha := coeff_mem (V.rowwise_sub V.colwise_mean) i1 j h1 hjc hClen
  have hb := coeff_mem (V.rowwise_sub V.colwise_mean) i2 j h2 hjc hClen
  have hab : (V.rowwise_sub V.colwise_mean).coeff i1 j
      ≠ (V.rowwise_sub V.colwise_mean).coeff i2 j := by
    rw [coeff_rowwise_sub V _ i1 j h1 hjc hlen, coeff_rowwise_sub V _ i2 j h2 hjc hlen]
    intro h
    exact hne (sub_left_inj.mp h)
  cases hd : (V.rowwise_sub V.colwise_mean).data with
  | nil => rw [hd] at ha; simp at ha
  | cons x xs =>
    rw [hd] at ha hb
    have hpos : 0 < xs.foldl max x - xs.foldl min x := spread_pos x xs _ _ ha hb hab
    have hmax := maxCoeff_eq _ x xs hd
    have hmin := minCoeff_eq _ x xs hd
    have hmono : Monotone (fun y : scalar_type => y / (xs.foldl max x - xs.foldl min x)) :=
      fun a b h => div_le_div_of_nonneg_right h hpos.le
    have hRd : ((V.rowwise_sub V.colwise_mean).array_div
          (xs.foldl max x - xs.foldl min x)).data
        = (x / (xs.foldl max x - xs.foldl min x))
          :: xs.map (fun y => y / (xs.foldl max x - xs.foldl min x)) := by
      simp [MatrixX.array_div, hd]
    refine ⟨(V.rowwise_sub V.colwise_mean).array_div (xs.foldl max x - xs.foldl min x),
      xs.foldl max x, xs.foldl min x, hmax, hmin, hpos.ne', one_div_pos.mpr hpos, ?_, rfl,
      hc, ?_, ?_, ?_, ?_⟩
    · simp [rescale, hc, hmax, hmin]
    · simp [MatrixX.array_div, MatrixX.rowwise_sub, hlen, hc]
    · intro j3
      have hj3 : (j3 : Nat) < V.cols := by rw [hc]; exact j3.isLt
      have hr : 0 < V.rows := by omega
      exact colwise_mean_array_div _ _ _ hj3 hClen (colwise_mean_rowwise_sub V _ hr hj3 hlen)
    · refine ⟨_, _, maxCoeff_eq _ _ _ hRd, minCoeff_eq _ _ _ hRd, ?_⟩
      rw [foldl_max_map _ hmono, foldl_min_map _ hmono, ← sub_div, div_self hpos.ne']
    · intro i j3
      have hj3 : (j3 : Nat) < V.cols := by rw [hc]; exact j3.isLt
      rw [coeff_array_div (V.rowwise_sub V.colwise_mean) _ _ _ i.isLt hj3 hClen,
        coeff_rowwise_sub V _ _ _ i.isLt hj3 hlen, div_eq_mul_one_div]

/-- Instance of C11 on the vertices `(0,0,0)` and `(2,0,0)`: the hypotheses hold and the
rescaled matrix is the one with the vertices `(-1/2,0,0)` and `(1/2,0,0)`. -/
theorem rescale_normalises_witness :
    sample_vertices.cols = 3 ∧
      sample_vertices.data.length = sample_vertices.rows * sample_vertices.cols ∧
      sample_vertices.coeff 0 0 ≠ sample_vertices.coeff 1 0 ∧
      rescale sample_vertices = some ⟨2, 3, [-1 / 2, 1 / 2, 0, 0, 0, 0]⟩ ∧
      ∃ R, rescale sample_vertices = some R ∧
        ∃ rhi rlo, R.maxCoeff = some rhi ∧ R.minCoeff = some rlo ∧ rhi - rlo = 1 := by
  have hne : sample_vertices.coeff 0 0 ≠ sample_vertices.coeff 1 0 := by
    simp [sample_vertices, MatrixX.coeff]
  obtain ⟨R, hi, lo, -, -, -, -, hR, -, -, -, -, hspread, -⟩ :=
    rescale_normalises sample_vertices rfl rfl
      ⟨0, by decide, 1, by decide, 0, by decide, hne⟩
  refine ⟨rfl, rfl, hne, ?_, R, hR, hspread⟩
  simp [rescale, sample_vertices, MatrixX.rowwise_sub, MatrixX.colwise_mean, MatrixX.col,
    MatrixX.coeff, MatrixX.maxCoeff, MatrixX.minCoeff, MatrixX.array_div, List.range_succ,
    List.mapIdx_cons]
  norm_num

end driver
